import Mathlib

/-!
Verification of the glbtool GLB-optimization pipeline.

Shallow embedding of the Python sources under `src/`:
* `glbtools/mesh_processor.py` — `MeshProcessor` (simplification, cleanup,
  unused-vertex removal, validate-and-repair),
* `glbtools/scene_manager.py` — `SceneManager.flatten_scene`,
* `glbtools/texture_processor.py` — `TextureProcessor`,
* `glbtools/validators.py` and `glbtools/config.py` — parameter validation,
* `glbopt.py` — the command surface's validation path.

Conventions: Python floats are modelled as `ℚ`; numpy integer arrays as
`List Int`; numpy fancy indexing (with Python's negative-index wrap and
out-of-range `IndexError`) as `Option`-returning lookups; an uncaught
exception is an `Option.none` that the caller's `try/except` turns into a
`false` result.  Geometries are mutated in place in Python; here state is
passed explicitly, so mutating methods return a `Bool × Mesh` pair.
-/

namespace GLBTool

/-- A 3-D vertex position (float coordinates modelled as integers; only
equality and linear arithmetic on coordinates matter to the verified
properties). -/
abbrev Vec3 := Int × Int × Int

/-- One face: a triple of vertex indices.  numpy stores signed integers, so
indices can be negative (Python's wrap-around indexing applies). -/
abbrev Face := Int × Int × Int

/-- RGBA-style per-vertex attribute entry (colors, tangents). -/
abbrev Vec4 := Int × Int × Int × Int

/-- Python/numpy single-element indexing `l[i]`: non-negative indices are
positions, negative indices count from the end, anything out of range raises
(`none`). -/
def pyGet (l : List α) (i : Int) : Option α :=
  if 0 ≤ i then l[i.toNat]?
  else if 0 ≤ (l.length : Int) + i then l[((l.length : Int) + i).toNat]?
  else none

/-- numpy fancy indexing `l[idxs]`: every index is resolved with `pyGet`;
one bad index raises (`none`). -/
def pySlice (l : List α) : List Int → Option (List α)
  | [] => some []
  | i :: is =>
    match pyGet l i, pySlice l is with
    | some a, some ys => some (a :: ys)
    | _, _ => none

/-- Resolve one (possibly negative) index against a buffer of length `n` to
its absolute position. -/
def resolveIdx (n : Nat) (i : Int) : Option Nat :=
  if 0 ≤ i ∧ i < (n : Int) then some i.toNat
  else if i < 0 ∧ 0 ≤ i + (n : Int) then some (i + (n : Int)).toNat
  else none

/-- Resolve all three indices of a face. -/
def resolveFace (n : Nat) (f : Face) : Option (Nat × Nat × Nat) :=
  match resolveIdx n f.1, resolveIdx n f.2.1, resolveIdx n f.2.2 with
  | some a, some b, some c => some (a, b, c)
  | _, _, _ => none

/-- Resolve a whole face buffer; fails as soon as one index is out of range,
like the numpy operations in the cleanup passes. -/
def resolveFaces (n : Nat) : List Face → Option (List (Nat × Nat × Nat))
  | [] => some []
  | f :: fs =>
    match resolveFace n f, resolveFaces n fs with
    | some t, some ts => some (t :: ts)
    | _, _ => none

/-- Gather a buffer at a list of (already absolute) positions. -/
def sliceNat (l : List α) (ks : List Nat) : List α :=
  ks.filterMap (fun k => l[k]?)

/-- The absolute positions of a face already written with canonical
(non-negative, in-range) indices. -/
def toNat3 (f : Face) : Nat × Nat × Nat :=
  (f.1.toNat, f.2.1.toNat, f.2.2.toNat)

/-- A face written with canonical indices for a vertex buffer of length
`n`: all three non-negative and below `n`. -/
def canonicalFace (n : Nat) (f : Face) : Prop :=
  0 ≤ f.1 ∧ f.1 < (n : Int) ∧ 0 ≤ f.2.1 ∧ f.2.1 < (n : Int) ∧ 0 ≤ f.2.2 ∧ f.2.2 < (n : Int)

/-- All vertex indices mentioned by a face buffer, in face order
(`geometry.faces.flatten()`). -/
def faceVals (fs : List Face) : List Int :=
  fs.flatMap (fun f => [f.1, f.2.1, f.2.2])

/-- First-occurrence deduplication, the order a Python `set` built by
iteration then materialised keeps before sorting. -/
def dedupFirst [DecidableEq α] (seen : List α) : List α → List α
  | [] => []
  | x :: xs => if x ∈ seen then dedupFirst seen xs else x :: dedupFirst (x :: seen) xs

/-- Helper for `dedupByRel`: `kept` accumulates the retained elements. -/
def dedupByRelAux (r : α → α → Bool) (kept : List α) : List α → List α
  | [] => []
  | x :: xs =>
    if kept.any (fun y => r y x) then dedupByRelAux r kept xs
    else x :: dedupByRelAux r (kept ++ [x]) xs

/-- Keep each list element only when the given relation links it to no
earlier kept element (first occurrence of each equivalence class wins). -/
def dedupByRel (r : α → α → Bool) (l : List α) : List α :=
  dedupByRelAux r [] l

/-- Position of the first occurrence of `a` in a list (the old-to-new index
maps of the vertex-removal routines are lookups in an ordered index list). -/
def idxOf [DecidableEq α] (a : α) : List α → Nat
  | [] => 0
  | x :: xs => if x = a then 0 else idxOf a xs + 1

/-- Python `int()` applied to a float: truncation toward zero. -/
def pyInt (q : ℚ) : Int :=
  if 0 ≤ q then ⌊q⌋ else -⌊-q⌋

/-- A mesh geometry: vertex buffer, face buffer and the optional per-vertex
attribute buffers carried by `geometry.visual` (UV coordinates, normals,
colors, tangents).  Mirrors the data model of `mesh_processor.py`. -/
structure Mesh where
  vertices : List Vec3
  faces : List Face
  uv : Option (List (Int × Int))
  normals : Option (List Vec3)
  colors : Option (List Vec4)
  tangents : Option (List Vec4)
deriving DecidableEq

/-- The subset of `OptimizationConfig` (config.py lines 7-42) the verified
routines read, with the source defaults. -/
structure OptimizationConfig where
  webp_quality_normal : Int := 85
  webp_quality_aggressive : Int := 70
  min_texture_size : Int := 64
  min_face_ratio : ℚ := 1 / 2
  safe_face_ratio : ℚ := 4 / 5
  min_face_count : Nat := 100
deriving DecidableEq

/-- The process-wide default configuration (`OptimizationConfig()`). -/
def defaultConfig : OptimizationConfig := {}

/-- config.py `validate_target_ratio`: `0.05 <= ratio <= 1.0`.  Exported by
the package but never invoked on the command path. -/
def config_validate_target_ratio (ratio : ℚ) : Bool :=
  1 / 20 ≤ ratio ∧ ratio ≤ 1

/-- validators.py `ParameterValidator.validate_target_ratio` (lines
143-157): collects an error exactly when the ratio is outside
`[0.01, 1.0]`; the `ratio < 0.1` branch only logs a warning.  Returns the
`(is_valid, errors)` pair. -/
def paramValidator_validate_target_ratio (ratio : ℚ) : Bool × List String :=
  let errors : List String :=
    if ¬ (1 / 100 ≤ ratio ∧ ratio ≤ 1) then ["target_ratio out of range"] else []
  (errors.length == 0, errors)

/-- glbopt.py `validate_input` lines 174-179: an explicitly supplied ratio
is checked with the parameter validator; `None` ratios skip the check. -/
def validate_input_ratio (ratio : Option ℚ) : Bool :=
  match ratio with
  | none => true
  | some r => (paramValidator_validate_target_ratio r).1

/-! ## Mesh processor: unused-vertex removal (mesh_processor.py lines 90-142) -/

/-- The vertex indices used by any face, as a sorted list of distinct
values: `sorted(list(set(geometry.faces.flatten())))`. -/
def usedIndices (fs : List Face) : List Int :=
  List.insertionSort (· ≤ ·) (dedupFirst [] (faceVals fs))

/-- Rewrite one face through the old-to-new index map
(`old_to_new_index[old_idx]`, the position of the old index in the sorted
used-index list). -/
def remapFace (used : List Int) (f : Face) : Face :=
  ((idxOf f.1 used : Int), (idxOf f.2.1 used : Int), (idxOf f.2.2 used : Int))

/-- `MeshProcessor._remove_unused_vertices`.  Computes the set of vertex
indices used by any face, sorted ascending; when some vertices are unused it
slices the vertex buffer to the used indices, rewrites every face through
the old-to-new map, and then re-slices only the UV attribute (the source
touches no other per-vertex attribute).  A numpy `IndexError` (out-of-range
fancy index) is caught by the method's `try/except` and yields `false`; the
vertex/face assignment happens before the UV slice, so a failing UV slice
leaves a partially updated geometry, exactly as in the source. -/
def removeUnusedVertices (g : Mesh) : Bool × Mesh :=
  if g.vertices.length = 0 then (false, g)
  else if ((List.range g.vertices.length).filter
      (fun p : Nat => ¬ ((p : Int) ∈ usedIndices g.faces))).isEmpty then (true, g)
  else
    match pySlice g.vertices (usedIndices g.faces) with
    | none => (false, g)
    | some newVerts =>
      match g.uv with
      | none => (true, { g with vertices := newVerts,
                                faces := g.faces.map (remapFace (usedIndices g.faces)) })
      | some u =>
        match pySlice u (usedIndices g.faces) with
        | none => (false, { g with vertices := newVerts,
                                   faces := g.faces.map (remapFace (usedIndices g.faces)) })
        | some newUv => (true, { g with vertices := newVerts,
                                        faces := g.faces.map (remapFace (usedIndices g.faces)),
                                        uv := some newUv })

/-! ## Mesh processor: spec-modelled trimesh cleanup passes

`clean_geometry` (mesh_processor.py lines 47-88) interleaves its own passes
with calls into the external trimesh library (`merge_vertices`,
`remove_unreferenced_vertices`, `nondegenerate_faces`/`update_faces`,
`unique_faces`, `fix_normals`).  That library code is not part of this
repository, so those passes are modelled from the spec (§4.1). -/

/-- Vertex value at an absolute position (only consulted at positions known
to be in range). -/
def vertAt (vs : List Vec3) (p : Nat) : Vec3 :=
  (vs.get? p).getD (0, 0, 0)

/-- Modelled from the spec: trimesh `geometry.merge_vertices` ("merge
vertices within a configured epsilon distance — logical dedup of
near-identical positions, producing remapped faces"), the epsilon dedup
taken at exact positional equality.  Keeps the first occurrence of every
position, remaps each face index to its representative's new index, and
slices the per-vertex attribute buffers to the kept positions in lockstep
(spec §3 invariant).  An out-of-range face index raises (`none`), which
`clean_geometry`'s `try/except` turns into a `false` return. -/
def mergeVertices (g : Mesh) : Option Mesh :=
  let vs := g.vertices
  let n := vs.length
  match resolveFaces n g.faces with
  | none => none
  | some rf =>
    let firstPos : Nat → Nat := fun p => idxOf (vertAt vs p) vs
    let keepIdx : List Nat := (List.range n).filter (fun p => firstPos p = p)
    let newIdx : Nat → Int := fun p => (idxOf (firstPos p) keepIdx : Int)
    some { vertices := sliceNat vs keepIdx,
           faces := rf.map (fun f => (newIdx f.1, newIdx f.2.1, newIdx f.2.2)),
           uv := g.uv.map (fun u => sliceNat u keepIdx),
           normals := g.normals.map (fun u => sliceNat u keepIdx),
           colors := g.colors.map (fun u => sliceNat u keepIdx),
           tangents := g.tangents.map (fun u => sliceNat u keepIdx) }

/-- Modelled from the spec: trimesh `geometry.remove_unreferenced_vertices`
("remove vertices unreferenced by any face, with index remapping"): keeps
exactly the referenced positions in ascending order, re-slices every
per-vertex attribute in lockstep and rewrites faces through the old-to-new
map; raises (`none`) on an unresolvable face index. -/
def removeUnreferencedVertices (g : Mesh) : Option Mesh :=
  let vs := g.vertices
  let n := vs.length
  match resolveFaces n g.faces with
  | none => none
  | some rf =>
    let referenced : Nat → Bool := fun p =>
      rf.any (fun f => f.1 = p ∨ f.2.1 = p ∨ f.2.2 = p)
    let keep : List Nat := (List.range n).filter (fun p => referenced p)
    let rank : Nat → Int := fun p => (idxOf p keep : Int)
    some { vertices := sliceNat vs keep,
           faces := rf.map (fun f => (rank f.1, rank f.2.1, rank f.2.2)),
           uv := g.uv.map (fun u => sliceNat u keep),
           normals := g.normals.map (fun u => sliceNat u keep),
           colors := g.colors.map (fun u => sliceNat u keep),
           tangents := g.tangents.map (fun u => sliceNat u keep) }

/-- Cross product of two displacement vectors, used for the zero-area test. -/
def cross3 (u v : Vec3) : Vec3 :=
  (u.2.1 * v.2.2 - u.2.2 * v.2.1,
   u.2.2 * v.1 - u.1 * v.2.2,
   u.1 * v.2.1 - u.2.1 * v.1)

/-- Componentwise difference of positions. -/
def sub3 (u v : Vec3) : Vec3 :=
  (u.1 - v.1, u.2.1 - v.2.1, u.2.2 - v.2.2)

/-- A resolved face is degenerate when its three indices are not pairwise
distinct or its triangle has zero area (spec §4.1 pass 4). -/
def faceDegenerate (vs : List Vec3) (f : Nat × Nat × Nat) : Bool :=
  f.1 = f.2.1 ∨ f.2.1 = f.2.2 ∨ f.1 = f.2.2 ∨
    cross3 (sub3 (vertAt vs f.2.1) (vertAt vs f.1))
           (sub3 (vertAt vs f.2.2) (vertAt vs f.1)) = ((0 : Int), (0 : Int), (0 : Int))

/-- Modelled from the spec: `MeshProcessor._remove_invalid_faces` delegating
to trimesh `nondegenerate_faces` + `update_faces` ("remove degenerate faces:
faces whose three indices are not all distinct, or whose geometric area is
~0").  Keeps the original face rows whose resolved triangle is
nondegenerate; raises (`none`) on an unresolvable face index. -/
def removeInvalidFaces (g : Mesh) : Option Mesh :=
  match resolveFaces g.vertices.length g.faces with
  | none => none
  | some rf =>
    some { g with faces :=
      ((g.faces.zip rf).filter (fun pr => ¬ faceDegenerate g.vertices pr.2)).map Prod.fst }

/-- Face rotation `(a, b, c) → (b, c, a)`. -/
def rotFace (f : Face) : Face := (f.2.1, f.2.2, f.1)

/-- Two faces are duplicates when one is a rotation of the other (spec §4.1
pass 5: "same index triple, any rotation"). -/
def rotEquiv (f f' : Face) : Bool :=
  f' = f ∨ f' = rotFace f ∨ f' = rotFace (rotFace f)

/-- Modelled from the spec: `MeshProcessor._remove_duplicate_faces`
delegating to trimesh `unique_faces` + `update_faces` ("remove
exact-duplicate faces: same index triple, any rotation"), keeping the first
occurrence of every rotation class.  Purely index-level, never raises. -/
def removeDuplicateFaces (g : Mesh) : Mesh :=
  { g with faces := dedupByRel rotEquiv g.faces }

/-- Modelled from the spec: trimesh `geometry.fix_normals` ("recompute/fix
normal orientation to face outward").  Orientation-only: it alters neither
the vertex buffer, the face count, nor which vertices a face references, so
it is modelled as the identity on the mesh structure. -/
def fixNormals (g : Mesh) : Mesh := g

/-- `MeshProcessor.clean_geometry` (mesh_processor.py lines 47-88): the
fixed pipeline unused-vertex removal → merge vertices → remove unreferenced
vertices → remove degenerate faces → remove duplicate faces → fix normals.
The boolean result of the first pass is ignored exactly as in the source
(line 54); an exception escaping a trimesh call is caught by the method's
outer `try/except`, which returns `false` with the geometry left in its
partially cleaned state. -/
def clean_geometry (g : Mesh) : Bool × Mesh :=
  let g1 := (removeUnusedVertices g).2
  match mergeVertices g1 with
  | none => (false, g1)
  | some g2 =>
    match removeUnreferencedVertices g2 with
    | none => (false, g2)
    | some g3 =>
      match removeInvalidFaces g3 with
      | none => (false, g3)
      | some g4 => (true, fixNormals (removeDuplicateFaces g4))

/-! ## Mesh processor: safe simplification (mesh_processor.py lines 16-45)

The quadric decimation itself is the external black box
`geometry.simplify_quadric_decimation(face_count=...)`; following the
spec's capability interface (§9, `MeshSimplifier`) it enters the model as
an explicit `simplifier` argument returning `Option Mesh` (`none` covers
both a falsy/empty result and a raised exception — on either, the source
leaves the geometry unmodified and reports failure). -/

/-- The face count requested from the decimation transform:
`int(original_faces * max(safe_face_ratio, target_faces_ratio))`
(mesh_processor.py lines 25-26). -/
def requestedFaceCount (cfg : OptimizationConfig) (g : Mesh) (target_faces_ratio : ℚ) : Int :=
  pyInt ((g.faces.length : ℚ) * max cfg.safe_face_ratio target_faces_ratio)

/-- `MeshProcessor.simplify_geometry_safely`: skips geometries whose face
count is below `min_face_count` returning `(False, 0, 0)`; otherwise asks
the decimation transform for `requestedFaceCount` faces and, when the
transform yields a non-empty mesh, replaces vertices, faces and the carried
visual attributes; on a `none`/empty reply it returns
`(False, original, original)` with the geometry untouched. -/
def simplify_geometry_safely (cfg : OptimizationConfig)
    (simplifier : Mesh → Int → Option Mesh) (g : Mesh) (target_faces_ratio : ℚ) :
    (Bool × Nat × Nat) × Mesh :=
  if g.faces.length < cfg.min_face_count then ((false, 0, 0), g)
  else
    let original_faces := g.faces.length
    match simplifier g (requestedFaceCount cfg g target_faces_ratio) with
    | some simplified =>
      if 0 < simplified.faces.length then
        ((true, original_faces, simplified.faces.length),
         { g with vertices := simplified.vertices, faces := simplified.faces,
                  uv := simplified.uv, normals := simplified.normals,
                  colors := simplified.colors, tangents := simplified.tangents })
      else ((false, original_faces, original_faces), g)
    | none => ((false, original_faces, original_faces), g)

/-! ## Mesh processor: validate and repair (mesh_processor.py lines 289-340) -/

/-- `np.max(geometry.faces)` over a non-empty face buffer (the `0` default
is never consulted: the caller guards on a non-empty buffer). -/
def faceValsMax (fs : List Face) : Int :=
  match faceVals fs with
  | [] => 0
  | x :: xs => xs.foldl max x

/-- The per-face validity test of the repair loop (mesh_processor.py line
310): every index at most `vertexCount - 1` and non-negative. -/
def validFace (n : Nat) (f : Face) : Bool :=
  f.1 ≤ (n : Int) - 1 ∧ f.2.1 ≤ (n : Int) - 1 ∧ f.2.2 ≤ (n : Int) - 1 ∧
    0 ≤ f.1 ∧ 0 ≤ f.2.1 ∧ 0 ≤ f.2.2

/-- `MeshProcessor.validate_and_repair_mesh`: rejects empty vertex or face
buffers; when the maximum face index exceeds `vertexCount - 1` it keeps
exactly the faces passing `validFace`, failing when none survives.  The
trailing `is_valid`/`fill_holes` block (lines 320-331) is inert: it is
guarded by `hasattr(geometry, 'is_valid')`, an attribute trimesh geometries
do not expose, and the spec's description of `validateAndRepair` (§4.1)
likewise omits it. -/
def validate_and_repair_mesh (g : Mesh) : Bool × Mesh :=
  if g.vertices.length = 0 ∨ g.faces.length = 0 then (false, g)
  else
    let maxVertexIndex : Int := (g.vertices.length : Int) - 1
    if faceValsMax g.faces > maxVertexIndex then
      let valid := g.faces.filter (validFace g.vertices.length)
      if 0 < valid.length then (true, { g with faces := valid })
      else (false, g)
    else (true, g)

/-! ## Concrete meshes used by witnesses and counterexamples -/

/-- A plain valid triangle. -/
def triangleMesh : Mesh :=
  { vertices := [(0, 0, 0), (1, 0, 0), (0, 1, 0)],
    faces := [((0 : Int), (1 : Int), (2 : Int))],
    uv := none, normals := none, colors := none, tangents := none }

/-- Four vertices of which only three are used by the single face; carries
a four-entry UV buffer and a four-entry color buffer. -/
def c3mesh : Mesh :=
  { vertices := [(0, 0, 0), (1, 0, 0), (0, 1, 0), (5, 5, 5)],
    faces := [((0 : Int), (1 : Int), (2 : Int))],
    uv := some [(0, 0), (1, 0), (0, 1), (9, 9)],
    normals := none,
    colors := some [(1, 1, 1, 1), (2, 2, 2, 2), (3, 3, 3, 3), (4, 4, 4, 4)],
    tangents := none }

/-- Three vertices, one face whose last index is negative; no index exceeds
`vertexCount - 1`. -/
def negFaceMesh : Mesh :=
  { vertices := [(0, 0, 0), (1, 0, 0), (0, 1, 0)],
    faces := [((0 : Int), (1 : Int), (-1 : Int))],
    uv := none, normals := none, colors := none, tangents := none }

/-- A degenerate triangle: its second and third vertices share the same
position. -/
def dupVertexMesh : Mesh :=
  { vertices := [(0, 0, 0), (1, 0, 0), (1, 0, 0)],
    faces := [((0 : Int), (1 : Int), (2 : Int))],
    uv := none, normals := none, colors := none, tangents := none }

/-- Two vertices and two faces, one referencing the out-of-range index `5`
and one fully valid. -/
def mixedFaceMesh : Mesh :=
  { vertices := [(0, 0, 0), (1, 0, 0)],
    faces := [((0 : Int), (1 : Int), (5 : Int)), ((0 : Int), (1 : Int), (1 : Int))],
    uv := none, normals := none, colors := none, tangents := none }

/-! ## Scene manager and texture processor (scene_manager.py, texture_processor.py)

A scene is an ordered name-to-geometry mapping.  Geometry attributes are
optional fields, mirroring the duck-typed `hasattr` checks of the source
(spec §9 reframes them exactly so).  A material's base-color image is
folded into the geometry (`geometry.visual.material.image`); `none` stands
for a missing visual/material/image. -/

/-- A decoded raster image (width, height); the pixel payload is irrelevant
to every verified property and is represented by an identifying tag. -/
structure Img where
  w : Int
  h : Int
  tag : Int
deriving DecidableEq

/-- A scene-level geometry as the scene manager and texture processor see
it: optional vertex data, optional face data, optional material image. -/
structure SGeom where
  vertices : Option (List Vec3)
  faces : Option (List Face)
  image : Option Img
deriving DecidableEq

/-- An ordered scene: iteration order of `scene.geometry.items()`. -/
abbrev Scene := List (String × SGeom)

/-- The keep test of `SceneManager.flatten_scene` (scene_manager.py line
65): `hasattr(geometry, 'vertices') and hasattr(geometry, 'faces')`. -/
def keepGeom (g : SGeom) : Bool :=
  g.vertices.isSome && g.faces.isSome

/-- `SceneManager.flatten_scene` (scene_manager.py lines 53-77): builds a
brand-new flat scene, adding every geometry that has both vertex and face
attributes under the sequential name `mesh_<counter>`, the counter advancing
only on kept geometries. -/
def flatten_scene (s : Scene) : Scene :=
  ((s.filter (fun pr => keepGeom pr.2)).enum).map
    (fun pr => ("mesh_" ++ toString pr.1, pr.2.2))

/-- A geometry having vertex data but no face data. -/
def vertOnlyGeom : SGeom :=
  { vertices := some [(0, 0, 0)], faces := none, image := none }

/-- Loop body of `TextureProcessor.compress_scene_textures_webp`
(texture_processor.py lines 20-43): walks the geometries carrying the
`texture_found` flag; a geometry with a material image marks the flag
*before* attempting compression and replaces the image only when the
internal WebP compression produced a result. -/
def compressTexLoop (compress : Img → Option Img) : Scene → Bool → Bool × Scene
  | [], found => (found, [])
  | (nm, g) :: rest, found =>
    match g.image with
    | none =>
      let r := compressTexLoop compress rest found
      (r.1, (nm, g) :: r.2)
    | some img =>
      let g' := match compress img with
                | some c => { g with image := some c }
                | none => g
      let r := compressTexLoop compress rest true
      (r.1, (nm, g') :: r.2)

/-- `TextureProcessor.compress_scene_textures_webp`: the whole body is
wrapped in `try/except` returning a boolean on every path, and the loop
itself cannot raise (`_compress_texture_webp` catches all its exceptions and
returns `None`), so the model is a total function to `Bool × Scene`. -/
def compress_scene_textures_webp (compress : Img → Option Img) (s : Scene) : Bool × Scene :=
  compressTexLoop compress s false

/-! ## Texture processor: resize dimensions (texture_processor.py lines 82-93) -/

/-- The output dimensions of `TextureProcessor._compress_texture_webp`: for
`resize_factor != 1.0` each dimension becomes
`max(min_texture_size, int(dim * resize_factor))`. -/
def webpNewSize (cfg : OptimizationConfig) (w h : Int) (f : ℚ) : Int × Int :=
  if f = 1 then (w, h)
  else (max cfg.min_texture_size (pyInt ((w : ℚ) * f)),
        max cfg.min_texture_size (pyInt ((h : ℚ) * f)))

/-! ## Invariants preserved and established by the cleanup pipeline

The idempotence analysis (C7) tracks four structural invariants of a mesh:
canonical face indices, duplicate-free vertex positions, nondegenerate
faces and pairwise rotation-distinct faces, plus the property that every
vertex is referenced by some face. -/

/-- All face indices canonical for the mesh's own vertex buffer. -/
def canonicalMesh (g : Mesh) : Prop :=
  ∀ f ∈ g.faces, canonicalFace g.vertices.length f

/-- No face of the mesh is degenerate. -/
def nondegenMesh (g : Mesh) : Prop :=
  ∀ f ∈ g.faces, faceDegenerate g.vertices (toNat3 f) = false

/-- No face is a rotation of an earlier face. -/
def rotDistinct (fs : List Face) : Prop :=
  List.Pairwise (fun a b => rotEquiv a b = false) fs

/-- Every vertex position is referenced by some face. -/
def allReferenced (g : Mesh) : Prop :=
  ∀ p : Nat, p < g.vertices.length →
    ∃ f ∈ g.faces, f.1 = (p : Int) ∨ f.2.1 = (p : Int) ∨ f.2.2 = (p : Int)


/-! ## Claim theorems for the validators, simplifier, repair, scene and texture components -/

/-- C4 counterexample.  The command surface's ratio validation accepts
`0.02`, which lies outside the `[0.05, 1.0]` range the claim states: the
validator wired into `glbopt.validate_input` is
`ParameterValidator.validate_target_ratio` with bounds `0.01`-`1.0`
(validators.py line 151), not config.py's `validate_target_ratio`. -/
theorem ratio_validation_accepts_below_five_percent :
    validate_input_ratio (some (1 / 50)) = true ∧ ¬ ((1 : ℚ) / 20 ≤ 1 / 50) := by
  refine ⟨?_, by norm_num⟩
  norm_num [validate_input_ratio, paramValidator_validate_target_ratio]

/-- C4 (amended): the parameter validation used before processing accepts a
numeric target ratio `r` (no validation error) if and only if
`0.01 ≤ r ≤ 1.0`. -/
theorem ratio_validation_iff (r : ℚ) :
    validate_input_ratio (some r) = true ↔ (1 / 100 ≤ r ∧ r ≤ 1) := by
  by_cases h : (1 / 100 : ℚ) ≤ r ∧ r ≤ 1 <;>
    simp [validate_input_ratio, paramValidator_validate_target_ratio, h]

/-- C2: `simplify_geometry_safely` never reports (or produces) more faces
than the original, and below `min_face_count` it returns `(false, 0, 0)`
with the geometry completely unmodified.  The hypothesis is the decimation
contract (spec glossary: decimation *reduces* a mesh's face count; the
transform never adds faces). -/
theorem simplify_safely_bounded (cfg : OptimizationConfig)
    (simplifier : Mesh → Int → Option Mesh) (g : Mesh) (r : ℚ)
    (hs : ∀ m t s', simplifier m t = some s' → s'.faces.length ≤ m.faces.length) :
    ((simplify_geometry_safely cfg simplifier g r).1.2.2 ≤
        (simplify_geometry_safely cfg simplifier g r).1.2.1) ∧
    ((simplify_geometry_safely cfg simplifier g r).2.faces.length ≤ g.faces.length) ∧
    (g.faces.length < cfg.min_face_count →
      simplify_geometry_safely cfg simplifier g r = ((false, 0, 0), g)) := by
  unfold simplify_geometry_safely
  by_cases hlt : g.faces.length < cfg.min_face_count
  · simp [hlt]
  · simp only [hlt, if_false]
    cases hcall : simplifier g (requestedFaceCount cfg g r) with
    | none => simp [hlt]
    | some s =>
      have hle := hs g (requestedFaceCount cfg g r) s hcall
      by_cases hpos : 0 < s.faces.length
      · simp [hpos, hle, hlt]
      · simp [hpos, hlt]

/-- C2 witness: the theorem applied to the default configuration, a
decimation transform that always declines, and the triangle mesh. -/
theorem simplify_safely_bounded_witness :
    ((simplify_geometry_safely defaultConfig (fun _ _ => none) triangleMesh (1 / 2)).1.2.2 ≤
        (simplify_geometry_safely defaultConfig (fun _ _ => none) triangleMesh (1 / 2)).1.2.1) ∧
    ((simplify_geometry_safely defaultConfig (fun _ _ => none) triangleMesh
        (1 / 2)).2.faces.length ≤ triangleMesh.faces.length) ∧
    (triangleMesh.faces.length < defaultConfig.min_face_count →
      simplify_geometry_safely defaultConfig (fun _ _ => none) triangleMesh (1 / 2) =
        ((false, 0, 0), triangleMesh)) :=
  simplify_safely_bounded defaultConfig (fun _ _ => none) triangleMesh (1 / 2)
    (fun _ _ _ h => Option.noConfusion h)

/-- C8: above the minimum face count, the effective ratio is
`max(safe_face_ratio, targetRatio)` and the decimation transform is
consulted exactly at `floor(originalFaceCount * effectiveRatio)` target
faces: the request equals that floor, and the outcome depends on the
transform only through its reply at that single request. -/
theorem simplify_requests_floor (cfg : OptimizationConfig) (g : Mesh) (r : ℚ)
    (s₁ s₂ : Mesh → Int → Option Mesh)
    (hmin : cfg.min_face_count ≤ g.faces.length)
    (hsafe : 0 ≤ cfg.safe_face_ratio)
    (hagree : s₁ g (requestedFaceCount cfg g r) = s₂ g (requestedFaceCount cfg g r)) :
    requestedFaceCount cfg g r =
        ⌊(g.faces.length : ℚ) * max cfg.safe_face_ratio r⌋ ∧
    simplify_geometry_safely cfg s₁ g r = simplify_geometry_safely cfg s₂ g r := by
  constructor
  · have hq : (0 : ℚ) ≤ (g.faces.length : ℚ) * max cfg.safe_face_ratio r :=
      mul_nonneg (by positivity) (le_trans hsafe (le_max_left _ _))
    simp [requestedFaceCount, pyInt, hq]
  · unfold simplify_geometry_safely
    rw [if_neg (not_lt.mpr hmin), if_neg (not_lt.mpr hmin), hagree]

/-- C8 witness: a configuration with a minimum face count of one, the
triangle mesh, and two transforms that agree (both always decline). -/
theorem simplify_requests_floor_witness :
    requestedFaceCount { min_face_count := 1 } triangleMesh (1 / 2) =
        ⌊(triangleMesh.faces.length : ℚ) *
          max ({ min_face_count := 1 } : OptimizationConfig).safe_face_ratio (1 / 2)⌋ ∧
    simplify_geometry_safely { min_face_count := 1 } (fun _ _ => none) triangleMesh (1 / 2) =
      simplify_geometry_safely { min_face_count := 1 } (fun _ _ => none) triangleMesh (1 / 2) :=
  simplify_requests_floor { min_face_count := 1 } triangleMesh (1 / 2)
    (fun _ _ => none) (fun _ _ => none) (by decide) (by norm_num) rfl

/-- C6 counterexample.  `validate_and_repair_mesh` keeps a face whose third
index is `-1`: no index exceeds `vertexCount - 1`, so the repair branch
never runs and the negative-index face survives, contradicting the claim
that any face with a negative index is dropped. -/
theorem validate_keeps_negative_only_face :
    (validate_and_repair_mesh negFaceMesh).1 = true ∧
    (validate_and_repair_mesh negFaceMesh).2.faces = [((0 : Int), (1 : Int), (-1 : Int))] ∧
    (-1 : Int) < 0 := by
  decide

/-- C6 (amended): `validate_and_repair_mesh` returns `false` on an empty
vertex or face buffer; when some face index exceeds `vertexCount - 1` it
keeps exactly the faces whose indices all lie in `[0, vertexCount)`
(failing only when no face survives); when no face index exceeds the
maximum — even if negative indices are present — the geometry passes
unchanged. -/
theorem validate_and_repair_characterization (g : Mesh) :
    ((g.vertices.length = 0 ∨ g.faces.length = 0) →
      validate_and_repair_mesh g = (false, g)) ∧
    (¬ (g.vertices.length = 0 ∨ g.faces.length = 0) →
      faceValsMax g.faces > (g.vertices.length : Int) - 1 →
      (g.faces.filter (validFace g.vertices.length) ≠ [] →
        validate_and_repair_mesh g =
          (true, { g with faces := g.faces.filter (validFace g.vertices.length) })) ∧
      (g.faces.filter (validFace g.vertices.length) = [] →
        validate_and_repair_mesh g = (false, g))) ∧
    (¬ (g.vertices.length = 0 ∨ g.faces.length = 0) →
      ¬ (faceValsMax g.faces > (g.vertices.length : Int) - 1) →
      validate_and_repair_mesh g = (true, g)) := by
  unfold validate_and_repair_mesh
  refine ⟨fun h => by rw [if_pos h], fun h hmax => ?_,
    fun h hmax => by rw [if_neg h, if_neg hmax]⟩
  constructor
  · intro hne
    have hpos : 0 < (g.faces.filter (validFace g.vertices.length)).length :=
      List.length_pos.mpr hne
    rw [if_neg h, if_pos hmax, if_pos hpos]
  · intro hnil
    rw [if_neg h, if_pos hmax, if_neg (by simp [hnil])]

/-- C6 witness: on the mixed mesh the repair branch keeps exactly the valid
face. -/
theorem validate_and_repair_witness :
    validate_and_repair_mesh mixedFaceMesh =
      (true, { mixedFaceMesh with
                 faces := mixedFaceMesh.faces.filter (validFace mixedFaceMesh.vertices.length) }) :=
  ((validate_and_repair_characterization mixedFaceMesh).2.1 (by decide) (by decide)).1 (by decide)

/-- C3: the unused-vertex removal re-slices the vertex buffer and the UV
buffer but leaves the color buffer at its old length, so a present
per-vertex attribute ends up with a length different from the new vertex
count — the source (mesh_processor.py lines 131-133) updates only
`visual.uv` despite its own comment promising the other vertex attributes
too. -/
theorem remove_unused_vertices_skips_colors :
    (removeUnusedVertices c3mesh).1 = true ∧
    (removeUnusedVertices c3mesh).2.vertices.length = 3 ∧
    (removeUnusedVertices c3mesh).2.uv.map List.length = some 3 ∧
    (removeUnusedVertices c3mesh).2.colors.map List.length = some 4 := by
  decide

/-- C5 counterexample.  A geometry that possesses vertex data (but lacks
face data) is dropped by `flatten_scene`, contradicting the claim that a
geometry is dropped only when it lacks *both*: the source keeps a geometry
only when it has both attributes. -/
theorem flatten_drops_geometry_with_vertices :
    flatten_scene [("a", vertOnlyGeom)] = [] ∧ vertOnlyGeom.vertices.isSome = true :=
  ⟨rfl, rfl⟩

/-- C5 (amended): `flatten_scene` returns a brand-new scene whose entries
carry the freshly generated sequential names `mesh_0`, `mesh_1`, … in
iteration order, and whose geometries are exactly the source geometries
possessing both vertex data and face data, in order; a geometry missing
either one is silently dropped. -/
theorem flatten_scene_spec (s : Scene) :
    (flatten_scene s).map Prod.fst =
      (List.range ((s.filter (fun pr => keepGeom pr.2)).length)).map
        (fun i => "mesh_" ++ toString i) ∧
    (flatten_scene s).map Prod.snd = (s.map Prod.snd).filter keepGeom := by
  constructor
  · unfold flatten_scene
    rw [List.map_map]
    have hc : (Prod.fst ∘ fun pr : Nat × (String × SGeom) => ("mesh_" ++ toString pr.1, pr.2.2)) =
        (fun i => "mesh_" ++ toString i) ∘ Prod.fst := rfl
    rw [hc, ← List.map_map, List.enum_map_fst]
  · unfold flatten_scene
    rw [List.map_map]
    have hc : (Prod.snd ∘ fun pr : Nat × (String × SGeom) => ("mesh_" ++ toString pr.1, pr.2.2)) =
        Prod.snd ∘ Prod.snd := rfl
    rw [hc, ← List.map_map, List.enum_map_snd]
    have hp : (fun pr : String × SGeom => keepGeom pr.2) = keepGeom ∘ Prod.snd := rfl
    rw [hp, List.filter_map]

/-- Closed form of the compression loop, for any initial flag value. -/
theorem compressTexLoop_spec (compress : Img → Option Img) :
    ∀ (l : Scene) (b : Bool),
      compressTexLoop compress l b =
        (b || l.any (fun pr => pr.2.image.isSome),
         l.map (fun pr =>
           (pr.1, { pr.2 with image := pr.2.image.map (fun img => (compress img).getD img) })))
  | [], b => by simp [compressTexLoop]
  | (nm, g) :: rest, b => by
    obtain ⟨gv, gf, gi⟩ := g
    cases gi with
    | none =>
      simp [compressTexLoop, compressTexLoop_spec compress rest b]
    | some img =>
      cases hc : compress img with
      | none =>
        simp [compressTexLoop, hc, compressTexLoop_spec compress rest true]
      | some c =>
        simp [compressTexLoop, hc, compressTexLoop_spec compress rest true]

/-- C10: per-texture failure atomicity.  For every scene and every
compression outcome, each material image is replaced exactly when the
internal WebP compression produced a result and is left exactly as it was
otherwise; the returned flag reports whether any material had an image.
The function is total (`Bool × Scene`), reflecting that the source never
lets an exception escape to its caller. -/
theorem compress_scene_textures_webp_atomic (compress : Img → Option Img) (s : Scene) :
    (compress_scene_textures_webp compress s).2 =
      s.map (fun pr =>
        (pr.1, { pr.2 with image := pr.2.image.map (fun img => (compress img).getD img) })) ∧
    (compress_scene_textures_webp compress s).1 = s.any (fun pr => pr.2.image.isSome) := by
  unfold compress_scene_textures_webp
  rw [compressTexLoop_spec]
  exact ⟨rfl, by simp⟩

/-- Under a positive clamp, Python's truncating `int()` and the
mathematical floor give the same clamped value (they differ only on
negative products, where both fall below the clamp). -/
theorem max_pyInt_eq_max_floor (m : Int) (hm : 0 < m) (q : ℚ) :
    max m (pyInt q) = max m ⌊q⌋ := by
  by_cases h : 0 ≤ q
  · simp [pyInt, h]
  · push_neg at h
    have h1 : ⌊q⌋ ≤ 0 := Int.floor_nonpos h.le
    have h2 : pyInt q ≤ 0 := by
      have : (0 : Int) ≤ ⌊-q⌋ := Int.le_floor.mpr (by push_cast; linarith)
      simp [pyInt, not_le.mpr h]
      linarith
    rw [max_eq_left (le_trans h1 hm.le), max_eq_left (le_trans h2 hm.le)]

/-- C9: with a resize factor other than 1, each output dimension is
`max(min_texture_size, floor(dim * factor))`, hence never below the
configured minimum edge length. -/
theorem webp_resize_dims (cfg : OptimizationConfig) (w h : Int) (f : ℚ)
    (hf : f ≠ 1) (hmin : 0 < cfg.min_texture_size) :
    webpNewSize cfg w h f =
      (max cfg.min_texture_size ⌊(w : ℚ) * f⌋, max cfg.min_texture_size ⌊(h : ℚ) * f⌋) ∧
    cfg.min_texture_size ≤ (webpNewSize cfg w h f).1 ∧
    cfg.min_texture_size ≤ (webpNewSize cfg w h f).2 := by
  have e : webpNewSize cfg w h f =
      (max cfg.min_texture_size (pyInt ((w : ℚ) * f)),
       max cfg.min_texture_size (pyInt ((h : ℚ) * f))) := by
    simp [webpNewSize, hf]
  refine ⟨?_, ?_, ?_⟩
  · rw [e, max_pyInt_eq_max_floor _ hmin, max_pyInt_eq_max_floor _ hmin]
  · rw [e]; exact le_max_left _ _
  · rw [e]; exact le_max_left _ _

/-! ## Helper lemmas on indexing, slicing and deduplication -/

theorem pyGet_of_nonneg {l : List α} {i : Int} (h0 : 0 ≤ i) :
    pyGet l i = l[i.toNat]? := by
  simp [pyGet, h0]

theorem pySlice_canonical {l : List α} : ∀ {idxs : List Int},
    (∀ i ∈ idxs, 0 ≤ i ∧ i < (l.length : Int)) →
    pySlice l idxs = some (sliceNat l (idxs.map Int.toNat))
  | [], _ => rfl
  | i :: is, h => by
    obtain ⟨h0, hlt⟩ := h i (List.mem_cons_self i is)
    have hn : i.toNat < l.length := by omega
    have hg : pyGet l i = some l[i.toNat] := by
      rw [pyGet_of_nonneg h0, List.getElem?_eq_getElem hn]
    have ih := @pySlice_canonical _ l is
      (fun j hj => h j (List.mem_cons_of_mem _ hj))
    simp [pySlice, hg, ih, sliceNat, List.filterMap_cons, List.getElem?_eq_getElem hn]

theorem sliceNat_length {l : List α} : ∀ {ks : List Nat},
    (∀ k ∈ ks, k < l.length) → (sliceNat l ks).length = ks.length
  | [], _ => rfl
  | k :: ks, h => by
    have hk : k < l.length := h k (List.mem_cons_self k ks)
    have ih := @sliceNat_length _ l ks
      (fun j hj => h j (List.mem_cons_of_mem _ hj))
    simp only [sliceNat, List.filterMap_cons, List.getElem?_eq_getElem hk] at ih ⊢
    simp [ih]

theorem sliceNat_getElem? {l : List α} : ∀ {ks : List Nat},
    (∀ k ∈ ks, k < l.length) →
    ∀ j : Nat, (sliceNat l ks)[j]? = ks[j]?.bind (fun k => l[k]?)
  | [], _, j => by simp [sliceNat]
  | k :: ks, h, j => by
    have hk : k < l.length := h k (List.mem_cons_self k ks)
    have ih := @sliceNat_getElem? _ l ks
      (fun m hm => h m (List.mem_cons_of_mem _ hm))
    cases j with
    | zero => simp [sliceNat, List.filterMap_cons, List.getElem?_eq_getElem hk]
    | succ j => simpa [sliceNat, List.filterMap_cons, List.getElem?_eq_getElem hk] using ih j

theorem sliceNat_range (l : List α) : sliceNat l (List.range l.length) = l := by
  apply List.ext_getElem?
  intro j
  rw [sliceNat_getElem? (by simp) j]
  by_cases hj : j < l.length
  · rw [List.getElem?_range hj]
    rfl
  · have h1 : l.length ≤ j := le_of_not_lt hj
    rw [List.getElem?_eq_none (by simpa using h1), List.getElem?_eq_none h1]
    rfl

theorem sliceNat_nodup {l : List α} {ks : List Nat} (hl : l.Nodup) (hks : ks.Nodup)
    (hv : ∀ k ∈ ks, k < l.length) : (sliceNat l ks).Nodup := by
  rw [List.nodup_iff_injective_get]
  intro i j hij
  have hlen : (sliceNat l ks).length = ks.length := sliceNat_length hv
  have hi : (i : Nat) < ks.length := hlen ▸ i.2
  have hj : (j : Nat) < ks.length := hlen ▸ j.2
  have hij' : (sliceNat l ks)[(i : Nat)] = (sliceNat l ks)[(j : Nat)] := by
    simpa [List.get_eq_getElem] using hij
  have t1 := sliceNat_getElem? hv (i : Nat)
  have t2 := sliceNat_getElem? hv (j : Nat)
  rw [List.getElem?_eq_getElem i.2, List.getElem?_eq_getElem hi] at t1
  rw [List.getElem?_eq_getElem j.2, List.getElem?_eq_getElem hj] at t2
  simp only [Option.some_bind] at t1 t2
  have e1 : l[ks[(i : Nat)]]? = l[ks[(j : Nat)]]? := by
    rw [← t1, ← t2, hij']
  have hk : ks[(i : Nat)] = ks[(j : Nat)] := by
    have hb : ks[(i : Nat)] < l.length := hv _ (List.getElem_mem hi)
    exact List.getElem?_inj hb hl e1
  apply Fin.ext
  apply List.getElem?_inj hi hks
  rw [List.getElem?_eq_getElem hi, List.getElem?_eq_getElem hj, hk]

theorem idxOf_lt_length [DecidableEq α] {a : α} : ∀ {l : List α},
    a ∈ l → idxOf a l < l.length
  | x :: xs, h => by
    rw [idxOf]
    by_cases hx : x = a
    · rw [if_pos hx]
      simp
    · rw [if_neg hx]
      have hmem : a ∈ xs := by
        rcases List.mem_cons.mp h with rfl | h
        · exact absurd rfl hx
        · exact h
      simpa using idxOf_lt_length hmem

theorem getElem?_idxOf [DecidableEq α] {a : α} : ∀ {l : List α},
    a ∈ l → l[idxOf a l]? = some a
  | x :: xs, h => by
    rw [idxOf]
    by_cases hx : x = a
    · rw [if_pos hx]
      simp [hx]
    · rw [if_neg hx]
      have hmem : a ∈ xs := by
        rcases List.mem_cons.mp h with rfl | h
        · exact absurd rfl hx
        · exact h
      simpa using getElem?_idxOf hmem

theorem idxOf_inj [DecidableEq α] {l : List α} {a b : α} (ha : a ∈ l) (hb : b ∈ l)
    (h : idxOf a l = idxOf b l) : a = b := by
  have h1 := getElem?_idxOf ha
  have h2 := getElem?_idxOf hb
  rw [h] at h1
  exact Option.some.inj (h1.symm.trans h2)

theorem nodup_idxOf_getElem [DecidableEq α] : ∀ {l : List α}, l.Nodup →
    ∀ {p : Nat} (hp : p < l.length), idxOf l[p] l = p
  | x :: xs, hn, p, hp => by
    cases p with
    | zero => simp [idxOf]
    | succ p =>
      have hp' : p < xs.length := by simpa using hp
      have hx : xs[p] ∈ xs := List.getElem_mem hp'
      have hne : ¬ x = xs[p] := by
        intro he
        exact (List.nodup_cons.mp hn).1 (he ▸ hx)
      rw [List.getElem_cons_succ, idxOf, if_neg hne]
      simp [nodup_idxOf_getElem (List.nodup_cons.mp hn).2 hp']

theorem idxOf_range {p n : Nat} (h : p < n) : idxOf p (List.range n) = p := by
  have hp : p < (List.range n).length := by simpa using h
  have hio := nodup_idxOf_getElem (List.nodup_range n) hp
  rw [List.getElem_range] at hio
  exact hio

theorem mem_dedupFirst [DecidableEq α] : ∀ {l seen : List α} {x : α},
    x ∈ dedupFirst seen l ↔ x ∈ l ∧ x ∉ seen
  | [], seen, x => by simp [dedupFirst]
  | y :: l, seen, x => by
    by_cases hy : y ∈ seen
    · rw [dedupFirst, if_pos hy, mem_dedupFirst]
      constructor
      · rintro ⟨hx, hs⟩
        exact ⟨List.mem_cons_of_mem _ hx, hs⟩
      · rintro ⟨hx, hs⟩
        rcases List.mem_cons.mp hx with rfl | hx
        · exact absurd hy hs
        · exact ⟨hx, hs⟩
    · rw [dedupFirst, if_neg hy]
      constructor
      · intro hx
        rcases List.mem_cons.mp hx with rfl | hx
        · exact ⟨List.mem_cons_self _ _, hy⟩
        · obtain ⟨h1, h2⟩ := (mem_dedupFirst (l := l)).mp hx
          exact ⟨List.mem_cons_of_mem _ h1,
            fun hc => h2 (List.mem_cons_of_mem _ hc)⟩
      · rintro ⟨hx, hs⟩
        by_cases hxy : x = y
        · subst hxy
          exact List.mem_cons_self _ _
        · rcases List.mem_cons.mp hx with h | h
          · exact absurd h hxy
          · exact List.mem_cons_of_mem _ ((mem_dedupFirst (l := l)).mpr
              ⟨h, fun hc => (List.mem_cons.mp hc).elim hxy hs⟩)

theorem nodup_dedupFirst [DecidableEq α] : ∀ {l seen : List α}, (dedupFirst seen l).Nodup
  | [], _ => List.nodup_nil
  | y :: l, seen => by
    by_cases hy : y ∈ seen
    · rw [dedupFirst, if_pos hy]
      exact nodup_dedupFirst
    · rw [dedupFirst, if_neg hy]
      exact List.nodup_cons.mpr
        ⟨fun hc => (mem_dedupFirst.mp hc).2 (List.mem_cons_self _ _), nodup_dedupFirst⟩

theorem mem_dedupByRelAux {r : α → α → Bool} : ∀ {l kept : List α} {y : α},
    y ∈ dedupByRelAux r kept l → y ∈ l
  | [], _, y, h => by simp [dedupByRelAux] at h
  | x :: l, kept, y, h => by
    rw [dedupByRelAux] at h
    by_cases hc : kept.any (fun z => r z x) = true
    · rw [if_pos hc] at h
      exact List.mem_cons_of_mem _ (mem_dedupByRelAux h)
    · rw [if_neg hc] at h
      rcases List.mem_cons.mp h with rfl | h
      · exact List.mem_cons_self _ _
      · exact List.mem_cons_of_mem _ (mem_dedupByRelAux h)

theorem resolveIdx_lt {n : Nat} {i : Int} {p : Nat} (h : resolveIdx n i = some p) :
    p < n := by
  by_cases h1 : 0 ≤ i ∧ i < (n : Int)
  · rw [resolveIdx, if_pos h1] at h
    obtain ⟨h1a, h1b⟩ := h1
    injection h with h
    omega
  · by_cases h2 : i < 0 ∧ 0 ≤ i + (n : Int)
    · rw [resolveIdx, if_neg h1, if_pos h2] at h
      obtain ⟨h2a, h2b⟩ := h2
      injection h with h
      omega
    · rw [resolveIdx, if_neg h1, if_neg h2] at h
      exact absurd h (by simp)

theorem resolveIdx_canonical {n : Nat} {i : Int} (h0 : 0 ≤ i) (h1 : i < (n : Int)) :
    resolveIdx n i = some i.toNat := by
  rw [resolveIdx, if_pos ⟨h0, h1⟩]

theorem resolveFace_lt {n : Nat} {f : Face} {t : Nat × Nat × Nat}
    (h : resolveFace n f = some t) : t.1 < n ∧ t.2.1 < n ∧ t.2.2 < n := by
  unfold resolveFace at h
  cases h1 : resolveIdx n f.1 with
  | none => rw [h1] at h; simp at h
  | some a =>
    cases h2 : resolveIdx n f.2.1 with
    | none => rw [h1, h2] at h; simp at h
    | some b =>
      cases h3 : resolveIdx n f.2.2 with
      | none => rw [h1, h2, h3] at h; simp at h
      | some c =>
        rw [h1, h2, h3] at h
        injection h with h
        rw [← h]
        exact ⟨resolveIdx_lt h1, resolveIdx_lt h2, resolveIdx_lt h3⟩

theorem resolveFace_canonical {n : Nat} {f : Face} (h : canonicalFace n f) :
    resolveFace n f = some (toNat3 f) := by
  obtain ⟨a1, a2, b1, b2, c1, c2⟩ := h
  rw [resolveFace, resolveIdx_canonical a1 a2, resolveIdx_canonical b1 b2,
    resolveIdx_canonical c1 c2]
  rfl

theorem resolveFaces_length {n : Nat} : ∀ {fs : List Face} {rf},
    resolveFaces n fs = some rf → rf.length = fs.length
  | [], rf, h => by
    simp only [resolveFaces] at h
    injection h with h
    simp [← h]
  | f :: fs, rf, h => by
    simp only [resolveFaces] at h
    cases h1 : resolveFace n f with
    | none => rw [h1] at h; simp at h
    | some t =>
      cases h2 : resolveFaces n fs with
      | none => rw [h1, h2] at h; simp at h
      | some ts =>
        rw [h1, h2] at h
        injection h with h
        simp [← h, resolveFaces_length h2]

theorem resolveFaces_mem {n : Nat} : ∀ {fs : List Face} {rf},
    resolveFaces n fs = some rf → ∀ t ∈ rf, t.1 < n ∧ t.2.1 < n ∧ t.2.2 < n
  | [], rf, h => by
    simp only [resolveFaces] at h
    injection h with h
    rw [← h]
    intro t ht
    simp at ht
  | f :: fs, rf, h => by
    simp only [resolveFaces] at h
    cases h1 : resolveFace n f with
    | none => rw [h1] at h; simp at h
    | some t0 =>
      cases h2 : resolveFaces n fs with
      | none => rw [h1, h2] at h; simp at h
      | some ts =>
        rw [h1, h2] at h
        injection h with h
        rw [← h]
        intro t ht
        rcases List.mem_cons.mp ht with rfl | ht
        · exact resolveFace_lt h1
        · exact resolveFaces_mem h2 t ht

theorem resolveFaces_canonical {n : Nat} : ∀ {fs : List Face},
    (∀ f ∈ fs, canonicalFace n f) → resolveFaces n fs = some (fs.map toNat3)
  | [], _ => rfl
  | f :: fs, h => by
    rw [resolveFaces, resolveFace_canonical (h f (List.mem_cons_self f fs)),
      resolveFaces_canonical (fun j hj => h j (List.mem_cons_of_mem _ hj))]
    rfl

theorem removeInvalidFaces_spec {g g' : Mesh} (h : removeInvalidFaces g = some g') :
    g'.vertices = g.vertices ∧ ∀ f ∈ g'.faces, f ∈ g.faces := by
  simp only [removeInvalidFaces] at h
  cases hrf : resolveFaces g.vertices.length g.faces with
  | none => rw [hrf] at h; simp at h
  | some rf =>
    rw [hrf] at h
    injection h with h
    subst h
    refine ⟨rfl, ?_⟩
    intro f hf
    simp only [List.mem_map] at hf
    obtain ⟨⟨f0, t0⟩, hpr, rfl⟩ := hf
    exact (List.of_mem_zip (List.mem_filter.mp hpr).1).1

theorem removeDuplicateFaces_spec (g : Mesh) :
    (removeDuplicateFaces g).vertices = g.vertices ∧
    ∀ f ∈ (removeDuplicateFaces g).faces, f ∈ g.faces :=
  ⟨rfl, fun _ hf => mem_dedupByRelAux hf⟩

theorem removeUnreferencedVertices_canonical {g g' : Mesh}
    (h : removeUnreferencedVertices g = some g') :
    ∀ f ∈ g'.faces, canonicalFace g'.vertices.length f := by
  simp only [removeUnreferencedVertices] at h
  cases hrf : resolveFaces g.vertices.length g.faces with
  | none => rw [hrf] at h; simp at h
  | some rf =>
    rw [hrf] at h
    injection h with h
    subst h
    intro f hf
    simp only [List.mem_map] at hf
    obtain ⟨t, ht, rfl⟩ := hf
    have hb := resolveFaces_mem hrf t ht
    have hkeepv : ∀ k ∈ (List.range g.vertices.length).filter
        (fun p => rf.any (fun f' => f'.1 = p ∨ f'.2.1 = p ∨ f'.2.2 = p)),
        k < g.vertices.length := by
      intro k hk
      exact List.mem_range.mp (List.mem_filter.mp hk).1
    have hlen : (sliceNat g.vertices ((List.range g.vertices.length).filter
        (fun p => rf.any (fun f' => f'.1 = p ∨ f'.2.1 = p ∨ f'.2.2 = p)))).length =
        ((List.range g.vertices.length).filter
          (fun p => rf.any (fun f' => f'.1 = p ∨ f'.2.1 = p ∨ f'.2.2 = p))).length :=
      sliceNat_length hkeepv
    have hmem : ∀ p, (p = t.1 ∨ p = t.2.1 ∨ p = t.2.2) → p < g.vertices.length →
        p ∈ (List.range g.vertices.length).filter
          (fun p => rf.any (fun f' => f'.1 = p ∨ f'.2.1 = p ∨ f'.2.2 = p)) := by
      intro p hp hplt
      refine List.mem_filter.mpr ⟨List.mem_range.mpr hplt, ?_⟩
      refine List.any_eq_true.mpr ⟨t, ht, ?_⟩
      rcases hp with rfl | rfl | rfl <;> simp
    have h1 := idxOf_lt_length (hmem t.1 (Or.inl rfl) hb.1)
    have h2 := idxOf_lt_length (hmem t.2.1 (Or.inr (Or.inl rfl)) hb.2.1)
    have h3 := idxOf_lt_length (hmem t.2.2 (Or.inr (Or.inr rfl)) hb.2.2)
    simp only [canonicalFace, hlen]
    refine ⟨by positivity, by exact_mod_cast h1, by positivity, by exact_mod_cast h2,
      by positivity, by exact_mod_cast h3⟩

theorem mem_faceVals {fs : List Face} {x : Int} :
    x ∈ faceVals fs ↔ ∃ f ∈ fs, x = f.1 ∨ x = f.2.1 ∨ x = f.2.2 := by
  simp [faceVals, eq_comm]

theorem nodup_lt_length_le {ks : List Nat} {n : Nat} (hk : ks.Nodup)
    (hv : ∀ k ∈ ks, k < n) : ks.length ≤ n := by
  have h1 : ks.toFinset.card = ks.length := List.toFinset_card_of_nodup hk
  have h2 : ks.toFinset ⊆ Finset.range n := by
    intro x hx
    exact Finset.mem_range.mpr (hv x (List.mem_toFinset.mp hx))
  have h3 := Finset.card_le_card h2
  rw [h1, Finset.card_range] at h3
  exact h3

theorem dedupByRelAux_pairwise {r : α → α → Bool} : ∀ {l kept : List α},
    List.Pairwise (fun a b => r a b = false) (dedupByRelAux r kept l) ∧
    (∀ x ∈ kept, ∀ y ∈ dedupByRelAux r kept l, r x y = false)
  | [], kept => ⟨List.Pairwise.nil, by simp [dedupByRelAux]⟩
  | x :: l, kept => by
    rw [dedupByRelAux]
    by_cases hc : kept.any (fun z => r z x) = true
    · rw [if_pos hc]
      exact dedupByRelAux_pairwise
    · rw [if_neg hc]
      have hfalse : kept.any (fun z => r z x) = false := by simpa using hc
      have hall : ∀ z ∈ kept, r z x = false := by
        intro z hz
        have := List.any_eq_false.mp hfalse z hz
        simpa using this
      have ih := @dedupByRelAux_pairwise _ r l (kept ++ [x])
      constructor
      · refine List.pairwise_cons.mpr ⟨?_, ih.1⟩
        intro y hy
        exact ih.2 x (by simp) y hy
      · intro z hz y hy
        rcases List.mem_cons.mp hy with rfl | hy
        · exact hall z hz
        · exact ih.2 z (by simp [hz]) y hy

theorem dedupByRelAux_eq_self {r : α → α → Bool} : ∀ {l kept : List α},
    List.Pairwise (fun a b => r a b = false) l →
    (∀ x ∈ kept, ∀ y ∈ l, r x y = false) →
    dedupByRelAux r kept l = l
  | [], _, _, _ => rfl
  | x :: l, kept, hp, hk => by
    rw [dedupByRelAux]
    have hc : kept.any (fun z => r z x) = false :=
      List.any_eq_false.mpr (fun z hz => by simp [hk z hz x (List.mem_cons_self x l)])
    rw [if_neg (by simp [hc])]
    congr 1
    apply dedupByRelAux_eq_self (List.pairwise_cons.mp hp).2
    intro z hz y hy
    rcases List.mem_append.mp hz with hz | hz
    · exact hk z hz y (List.mem_cons_of_mem _ hy)
    · simp only [List.mem_singleton] at hz
      subst hz
      exact (List.pairwise_cons.mp hp).1 y hy

theorem resolveFaces_zip {n : Nat} : ∀ {fs : List Face} {rf},
    resolveFaces n fs = some rf → ∀ pr ∈ fs.zip rf, resolveFace n pr.1 = some pr.2
  | [], rf, h => by
    intro pr hpr
    simp at hpr
  | f :: fs, rf, h => by
    simp only [resolveFaces] at h
    cases h1 : resolveFace n f with
    | none => rw [h1] at h; simp at h
    | some t =>
      cases h2 : resolveFaces n fs with
      | none => rw [h1, h2] at h; simp at h
      | some ts =>
        rw [h1, h2] at h
        injection h with h
        subst h
        intro pr hpr
        rw [List.zip_cons_cons] at hpr
        rcases List.mem_cons.mp hpr with rfl | hpr
        · exact h1
        · exact resolveFaces_zip h2 pr hpr

theorem vertAt_lt {vs : List Vec3} {p : Nat} (h : p < vs.length) :
    vertAt vs p = vs[p] := by
  simp [vertAt, List.getElem?_eq_getElem h]

theorem mergeVertices_nodup {g m : Mesh} (h : mergeVertices g = some m) :
    m.vertices.Nodup := by
  simp only [mergeVertices] at h
  cases hrf : resolveFaces g.vertices.length g.faces with
  | none => rw [hrf] at h; simp at h
  | some rf =>
    rw [hrf] at h
    injection h with h
    subst h
    show (sliceNat g.vertices ((List.range g.vertices.length).filter
      (fun p => idxOf (vertAt g.vertices p) g.vertices = p))).Nodup
    set vs := g.vertices with hvs
    set ks := (List.range vs.length).filter
      (fun p => idxOf (vertAt vs p) vs = p) with hks
    have hvalid : ∀ k ∈ ks, k < vs.length := by
      intro k hk
      exact List.mem_range.mp (List.mem_filter.mp hk).1
    have hfix : ∀ k ∈ ks, idxOf (vertAt vs k) vs = k := by
      intro k hk
      have := (List.mem_filter.mp hk).2
      simpa using this
    have hksnd : ks.Nodup := (List.nodup_range vs.length).filter _
    rw [List.nodup_iff_injective_get]
    intro i j hij
    have hlen : (sliceNat vs ks).length = ks.length := sliceNat_length hvalid
    have hi : (i : Nat) < ks.length := hlen ▸ i.2
    have hj : (j : Nat) < ks.length := hlen ▸ j.2
    have hij' : (sliceNat vs ks)[(i : Nat)] = (sliceNat vs ks)[(j : Nat)] := by
      simpa [List.get_eq_getElem] using hij
    have t1 := sliceNat_getElem? hvalid (i : Nat)
    have t2 := sliceNat_getElem? hvalid (j : Nat)
    rw [List.getElem?_eq_getElem i.2, List.getElem?_eq_getElem hi] at t1
    rw [List.getElem?_eq_getElem j.2, List.getElem?_eq_getElem hj] at t2
    simp only [Option.some_bind] at t1 t2
    have hbi : ks[(i : Nat)] < vs.length := hvalid _ (List.getElem_mem hi)
    have hbj : ks[(j : Nat)] < vs.length := hvalid _ (List.getElem_mem hj)
    rw [List.getElem?_eq_getElem hbi] at t1
    rw [List.getElem?_eq_getElem hbj] at t2
    have hvv : vs[ks[(i : Nat)]] = vs[ks[(j : Nat)]] := by
      have := hij'
      rw [← Option.some.injEq]
      rw [← t1, ← t2, this]
    have e1 : idxOf (vertAt vs ks[(i : Nat)]) vs = ks[(i : Nat)] :=
      hfix _ (List.getElem_mem hi)
    have e2 : idxOf (vertAt vs ks[(j : Nat)]) vs = ks[(j : Nat)] :=
      hfix _ (List.getElem_mem hj)
    rw [vertAt_lt hbi] at e1
    rw [vertAt_lt hbj] at e2
    have hkk : ks[(i : Nat)] = ks[(j : Nat)] := by
      rw [← e1, ← e2, hvv]
    apply Fin.ext
    apply List.getElem?_inj hi hksnd
    rw [List.getElem?_eq_getElem hi, List.getElem?_eq_getElem hj, hkk]

theorem removeUnreferencedVertices_nodup {g m : Mesh}
    (h : removeUnreferencedVertices g = some m) (hn : g.vertices.Nodup) :
    m.vertices.Nodup := by
  simp only [removeUnreferencedVertices] at h
  cases hrf : resolveFaces g.vertices.length g.faces with
  | none => rw [hrf] at h; simp at h
  | some rf =>
    rw [hrf] at h
    injection h with h
    subst h
    apply sliceNat_nodup hn ((List.nodup_range g.vertices.length).filter _)
    intro k hk
    exact List.mem_range.mp (List.mem_filter.mp hk).1

theorem mergeVertices_noop {g : Mesh} (hc : canonicalMesh g) (hn : g.vertices.Nodup) :
    ∃ m, mergeVertices g = some m ∧ m.vertices = g.vertices ∧ m.faces = g.faces := by
  have hrf := resolveFaces_canonical (n := g.vertices.length) hc
  have hfp : ∀ p, p < g.vertices.length →
      idxOf (vertAt g.vertices p) g.vertices = p := by
    intro p hp
    rw [vertAt_lt hp]
    exact nodup_idxOf_getElem hn hp
  have hkeep : (List.range g.vertices.length).filter
      (fun p => idxOf (vertAt g.vertices p) g.vertices = p) =
      List.range g.vertices.length := by
    rw [List.filter_eq_self]
    intro p hp
    simp [hfp p (List.mem_range.mp hp)]
  simp only [mergeVertices, hrf]
  refine ⟨_, rfl, ?_, ?_⟩
  · show sliceNat g.vertices ((List.range g.vertices.length).filter
      (fun p => idxOf (vertAt g.vertices p) g.vertices = p)) = g.vertices
    rw [hkeep, sliceNat_range]
  · show (g.faces.map toNat3).map _ = g.faces
    rw [List.map_map]
    conv_rhs => rw [← List.map_id g.faces]
    apply List.map_congr_left
    intro f hf
    obtain ⟨a1, a2, b1, b2, c1, c2⟩ := hc f hf
    obtain ⟨a, b, c⟩ := f
    have ha0 : (0 : Int) ≤ a := a1
    have halt : a < (g.vertices.length : Int) := a2
    have hb0 : (0 : Int) ≤ b := b1
    have hblt : b < (g.vertices.length : Int) := b2
    have hc0 : (0 : Int) ≤ c := c1
    have hclt : c < (g.vertices.length : Int) := c2
    simp only [Function.comp, toNat3, id]
    have hb1 : a.toNat < g.vertices.length := by omega
    have hb2 : b.toNat < g.vertices.length := by omega
    have hb3 : c.toNat < g.vertices.length := by omega
    rw [hkeep, hfp _ hb1, hfp _ hb2, hfp _ hb3,
      idxOf_range hb1, idxOf_range hb2, idxOf_range hb3]
    rw [Int.toNat_of_nonneg ha0, Int.toNat_of_nonneg hb0, Int.toNat_of_nonneg hc0]

theorem removeUnreferencedVertices_noop {g : Mesh} (hc : canonicalMesh g)
    (ha : allReferenced g) :
    ∃ m, removeUnreferencedVertices g = some m ∧
      m.vertices = g.vertices ∧ m.faces = g.faces := by
  have hrf := resolveFaces_canonical (n := g.vertices.length) hc
  have hreftrue : ∀ p ∈ List.range g.vertices.length,
      ((g.faces.map toNat3).any
        (fun f' => f'.1 = p ∨ f'.2.1 = p ∨ f'.2.2 = p)) = true := by
    intro p hp
    obtain ⟨f, hf, hcase⟩ := ha p (List.mem_range.mp hp)
    refine List.any_eq_true.mpr ⟨toNat3 f, List.mem_map_of_mem _ hf, ?_⟩
    obtain ⟨a1, a2, b1, b2, c1, c2⟩ := hc f hf
    simp only [toNat3, decide_eq_true_eq]
    rcases hcase with h | h | h
    · exact Or.inl (by omega)
    · exact Or.inr (Or.inl (by omega))
    · exact Or.inr (Or.inr (by omega))
  have hkeep : (List.range g.vertices.length).filter
      (fun p => (g.faces.map toNat3).any
        (fun f' => f'.1 = p ∨ f'.2.1 = p ∨ f'.2.2 = p)) =
      List.range g.vertices.length :=
    List.filter_eq_self.mpr hreftrue
  simp only [removeUnreferencedVertices, hrf]
  refine ⟨_, rfl, ?_, ?_⟩
  · show sliceNat g.vertices _ = g.vertices
    rw [hkeep, sliceNat_range]
  · show (g.faces.map toNat3).map _ = g.faces
    rw [List.map_map]
    conv_rhs => rw [← List.map_id g.faces]
    apply List.map_congr_left
    intro f hf
    obtain ⟨a1, a2, b1, b2, c1, c2⟩ := hc f hf
    obtain ⟨a, b, c⟩ := f
    have ha0 : (0 : Int) ≤ a := a1
    have halt : a < (g.vertices.length : Int) := a2
    have hb0 : (0 : Int) ≤ b := b1
    have hblt : b < (g.vertices.length : Int) := b2
    have hc0 : (0 : Int) ≤ c := c1
    have hclt : c < (g.vertices.length : Int) := c2
    simp only [Function.comp, toNat3, id]
    have hb1 : a.toNat < g.vertices.length := by omega
    have hb2 : b.toNat < g.vertices.length := by omega
    have hb3 : c.toNat < g.vertices.length := by omega
    rw [hkeep, idxOf_range hb1, idxOf_range hb2, idxOf_range hb3]
    rw [Int.toNat_of_nonneg ha0, Int.toNat_of_nonneg hb0, Int.toNat_of_nonneg hc0]

theorem removeInvalidFaces_noop {g : Mesh} (hc : canonicalMesh g) (hd : nondegenMesh g) :
    ∃ m, removeInvalidFaces g = some m ∧
      m.vertices = g.vertices ∧ m.faces = g.faces := by
  have hrf := resolveFaces_canonical (n := g.vertices.length) hc
  simp only [removeInvalidFaces, hrf]
  refine ⟨_, rfl, rfl, ?_⟩
  show ((g.faces.zip (g.faces.map toNat3)).filter _).map Prod.fst = g.faces
  have hzip : g.faces.zip (g.faces.map toNat3) =
      g.faces.map (fun f => (f, toNat3 f)) := by
    conv_lhs => rw [show g.faces.zip (g.faces.map toNat3) =
      (g.faces.map id).zip (g.faces.map toNat3) from by rw [List.map_id]]
    rw [List.zip_map']
    simp
  rw [hzip, List.filter_map, List.map_map]
  have hq : g.faces.filter
      ((fun pr : Face × (Nat × Nat × Nat) => ¬ faceDegenerate g.vertices pr.2 = true) ∘
        (fun f => (f, toNat3 f))) = g.faces := by
    apply List.filter_eq_self.mpr
    intro f hf
    simp [Function.comp, hd f hf]
  rw [show (Prod.fst ∘ fun f : Face => (f, toNat3 f)) = id from rfl]
  rw [List.map_id]
  apply List.filter_eq_self.mpr
  intro f hf
  simp [hd f hf]

theorem mem_usedIndices {fs : List Face} {i : Int} :
    i ∈ usedIndices fs ↔ i ∈ faceVals fs := by
  rw [usedIndices, (List.perm_insertionSort _ _).mem_iff, mem_dedupFirst]
  simp

theorem nodup_usedIndices (fs : List Face) : (usedIndices fs).Nodup :=
  (List.perm_insertionSort _ _).nodup_iff.mpr nodup_dedupFirst

theorem remapFace_rot (used : List Int) (f : Face) :
    remapFace used (rotFace f) = rotFace (remapFace used f) := rfl

/-- Core lemma for the second cleanup run: on a mesh satisfying all four
invariants, the repository's unused-vertex removal yields a mesh that again
satisfies them, has every vertex referenced, keeps the face count and does
not increase the vertex count. -/
theorem removeUnusedVertices_good {g : Mesh} (hc : canonicalMesh g)
    (hn : g.vertices.Nodup) (hd : nondegenMesh g) (hr : rotDistinct g.faces) :
    canonicalMesh (removeUnusedVertices g).2 ∧
    (removeUnusedVertices g).2.vertices.Nodup ∧
    nondegenMesh (removeUnusedVertices g).2 ∧
    rotDistinct (removeUnusedVertices g).2.faces ∧
    allReferenced (removeUnusedVertices g).2 ∧
    (removeUnusedVertices g).2.faces.length = g.faces.length ∧
    (removeUnusedVertices g).2.vertices.length ≤ g.vertices.length := by
  by_cases hn0 : g.vertices.length = 0
  · have hm : (removeUnusedVertices g).2 = g := by
      simp [removeUnusedVertices, hn0]
    rw [hm]
    refine ⟨hc, hn, hd, hr, ?_, rfl, le_refl _⟩
    intro p hp
    rw [hn0] at hp
    exact absurd hp (Nat.not_lt_zero p)
  · have husedvalid : ∀ i ∈ usedIndices g.faces,
        0 ≤ i ∧ i < (g.vertices.length : Int) := by
      intro i hi
      obtain ⟨f, hf, hcase⟩ := mem_faceVals.mp (mem_usedIndices.mp hi)
      obtain ⟨a1, a2, b1, b2, c1, c2⟩ := hc f hf
      rcases hcase with rfl | rfl | rfl
      · exact ⟨a1, a2⟩
      · exact ⟨b1, b2⟩
      · exact ⟨c1, c2⟩
    have hmemface : ∀ f ∈ g.faces,
        f.1 ∈ usedIndices g.faces ∧ f.2.1 ∈ usedIndices g.faces ∧
        f.2.2 ∈ usedIndices g.faces := by
      intro f hf
      exact ⟨mem_usedIndices.mpr (mem_faceVals.mpr ⟨f, hf, Or.inl rfl⟩),
        mem_usedIndices.mpr (mem_faceVals.mpr ⟨f, hf, Or.inr (Or.inl rfl)⟩),
        mem_usedIndices.mpr (mem_faceVals.mpr ⟨f, hf, Or.inr (Or.inr rfl)⟩)⟩
    by_cases hemp : ((List.range g.vertices.length).filter
        (fun p : Nat => ¬ ((p : Int) ∈ usedIndices g.faces))).isEmpty = true
    · have hm : (removeUnusedVertices g).2 = g := by
        unfold removeUnusedVertices
        rw [if_neg hn0, if_pos hemp]
      rw [hm]
      refine ⟨hc, hn, hd, hr, ?_, rfl, le_refl _⟩
      intro p hp
      have hfil := List.isEmpty_eq_true.mp hemp
      have hpm : (p : Int) ∈ usedIndices g.faces := by
        by_contra hno
        have hmem : p ∈ (List.range g.vertices.length).filter
            (fun p : Nat => ¬ ((p : Int) ∈ usedIndices g.faces)) :=
          List.mem_filter.mpr ⟨List.mem_range.mpr hp, by simpa using hno⟩
        rw [hfil] at hmem
        exact absurd hmem (List.not_mem_nil p)
      obtain ⟨f, hf, hcase⟩ := mem_faceVals.mp (mem_usedIndices.mp hpm)
      rcases hcase with he | he | he
      · exact ⟨f, hf, Or.inl he.symm⟩
      · exact ⟨f, hf, Or.inr (Or.inl he.symm)⟩
      · exact ⟨f, hf, Or.inr (Or.inr he.symm)⟩
    · have hslice := pySlice_canonical (l := g.vertices) husedvalid
      have hkey : (removeUnusedVertices g).2.vertices =
          sliceNat g.vertices ((usedIndices g.faces).map Int.toNat) ∧
          (removeUnusedVertices g).2.faces =
            g.faces.map (remapFace (usedIndices g.faces)) := by
        unfold removeUnusedVertices
        rw [if_neg hn0, if_neg hemp]
        rcases hug : g.uv with _ | u
        · simp [hslice, hug]
        · rcases hpu : pySlice u (usedIndices g.faces) with _ | newUv
          · simp [hslice, hug, hpu]
          · simp [hslice, hug, hpu]
      obtain ⟨hkv, hkf⟩ := hkey
      have husednodup := nodup_usedIndices g.faces
      have husedNnodup : ((usedIndices g.faces).map Int.toNat).Nodup := by
        refine husednodup.map_on ?_
        intro x hx y hy hxy
        have hx' := husedvalid x hx
        have hy' := husedvalid y hy
        omega
      have husedNvalid : ∀ k ∈ (usedIndices g.faces).map Int.toNat,
          k < g.vertices.length := by
        intro k hk
        obtain ⟨i, hi, rfl⟩ := List.mem_map.mp hk
        have := husedvalid i hi
        omega
      have hvlen : (removeUnusedVertices g).2.vertices.length =
          (usedIndices g.faces).length := by
        rw [hkv, sliceNat_length husedNvalid, List.length_map]
      have hpres : ∀ i ∈ usedIndices g.faces,
          vertAt (removeUnusedVertices g).2.vertices (idxOf i (usedIndices g.faces)) =
          vertAt g.vertices i.toNat := by
        intro i hi
        have hj : idxOf i (usedIndices g.faces) < (usedIndices g.faces).length :=
          idxOf_lt_length hi
        have e1 := sliceNat_getElem? husedNvalid (idxOf i (usedIndices g.faces))
        have e2 : ((usedIndices g.faces).map Int.toNat)[idxOf i (usedIndices g.faces)]? =
            some i.toNat := by
          rw [List.getElem?_map, getElem?_idxOf hi]
          rfl
        rw [e2] at e1
        have hbi : i.toNat < g.vertices.length := by
          have := husedvalid i hi
          omega
        rw [Option.some_bind, List.getElem?_eq_getElem hbi] at e1
        have hjlen : idxOf i (usedIndices g.faces) <
            (sliceNat g.vertices ((usedIndices g.faces).map Int.toNat)).length := by
          rw [sliceNat_length husedNvalid]
          simpa using hj
        rw [hkv, vertAt_lt hbi, vertAt_lt hjlen]
        exact Option.some.inj ((List.getElem?_eq_getElem hjlen).symm.trans e1)
      have hinj : ∀ x y : Face,
          x.1 ∈ usedIndices g.faces → x.2.1 ∈ usedIndices g.faces →
          x.2.2 ∈ usedIndices g.faces →
          y.1 ∈ usedIndices g.faces → y.2.1 ∈ usedIndices g.faces →
          y.2.2 ∈ usedIndices g.faces →
          remapFace (usedIndices g.faces) x = remapFace (usedIndices g.faces) y →
          x = y := by
        intro x y hx1 hx2 hx3 hy1 hy2 hy3 hxy
        simp only [remapFace, Prod.mk.injEq] at hxy
        obtain ⟨e1, e2, e3⟩ := hxy
        have q1 := idxOf_inj hx1 hy1 (by exact_mod_cast e1)
        have q2 := idxOf_inj hx2 hy2 (by exact_mod_cast e2)
        have q3 := idxOf_inj hx3 hy3 (by exact_mod_cast e3)
        obtain ⟨xa, xb, xc⟩ := x
        obtain ⟨ya, yb, yc⟩ := y
        simp only at q1 q2 q3
        simp [q1, q2, q3]
      refine ⟨?_, ?_, ?_, ?_, ?_, ?_, ?_⟩
      · intro f' hf'
        rw [hkf] at hf'
        obtain ⟨f, hf, rfl⟩ := List.mem_map.mp hf'
        obtain ⟨hm1, hm2, hm3⟩ := hmemface f hf
        have h1 := idxOf_lt_length hm1
        have h2 := idxOf_lt_length hm2
        have h3 := idxOf_lt_length hm3
        simp only [canonicalFace, remapFace, hvlen]
        refine ⟨by positivity, by exact_mod_cast h1, by positivity,
          by exact_mod_cast h2, by positivity, by exact_mod_cast h3⟩
      · rw [hkv]
        exact sliceNat_nodup hn husedNnodup husedNvalid
      · intro f' hf'
        rw [hkf] at hf'
        obtain ⟨f, hf, rfl⟩ := List.mem_map.mp hf'
        obtain ⟨hm1, hm2, hm3⟩ := hmemface f hf
        have hdf := hd f hf
        simp only [faceDegenerate, decide_eq_false_iff_not, not_or] at hdf ⊢
        obtain ⟨hne1, hne2, hne3, hcr⟩ := hdf
        have ht1 : (toNat3 (remapFace (usedIndices g.faces) f)).1 =
            idxOf f.1 (usedIndices g.faces) := by
          simp [toNat3, remapFace]
        have ht2 : (toNat3 (remapFace (usedIndices g.faces) f)).2.1 =
            idxOf f.2.1 (usedIndices g.faces) := by
          simp [toNat3, remapFace]
        have ht3 : (toNat3 (remapFace (usedIndices g.faces) f)).2.2 =
            idxOf f.2.2 (usedIndices g.faces) := by
          simp [toNat3, remapFace]
        rw [ht1, ht2, ht3]
        refine ⟨?_, ?_, ?_, ?_⟩
        · intro he
          refine hne1 ?_
          have hq := idxOf_inj hm1 hm2 he
          simp only [toNat3]
          rw [hq]
        · intro he
          refine hne2 ?_
          have hq := idxOf_inj hm2 hm3 he
          simp only [toNat3]
          rw [hq]
        · intro he
          refine hne3 ?_
          have hq := idxOf_inj hm1 hm3 he
          simp only [toNat3]
          rw [hq]
        · rw [hpres f.1 hm1, hpres f.2.1 hm2, hpres f.2.2 hm3]
          exact hcr
      · show List.Pairwise (fun a b => rotEquiv a b = false) (removeUnusedVertices g).2.faces
        rw [hkf, List.pairwise_map]
        refine List.Pairwise.imp_of_mem ?_ hr
        intro a b ha hb hab
        by_contra hcon
        have htrue : rotEquiv (remapFace (usedIndices g.faces) a)
            (remapFace (usedIndices g.faces) b) = true := by
          cases hx : rotEquiv (remapFace (usedIndices g.faces) a)
              (remapFace (usedIndices g.faces) b)
          · exact absurd hx hcon
          · rfl
        obtain ⟨ha1, ha2, ha3⟩ := hmemface a ha
        obtain ⟨hb1, hb2, hb3⟩ := hmemface b hb
        simp only [rotEquiv, decide_eq_true_eq] at htrue
        have hba : b = a ∨ b = rotFace a ∨ b = rotFace (rotFace a) := by
          rcases htrue with he | he | he
          · exact Or.inl (hinj b a hb1 hb2 hb3 ha1 ha2 ha3 he)
          · rw [← remapFace_rot] at he
            exact Or.inr (Or.inl (hinj b (rotFace a) hb1 hb2 hb3 ha2 ha3 ha1 he))
          · rw [← remapFace_rot, ← remapFace_rot] at he
            exact Or.inr (Or.inr
              (hinj b (rotFace (rotFace a)) hb1 hb2 hb3 ha3 ha1 ha2 he))
        have : rotEquiv a b = true := by
          simp only [rotEquiv, decide_eq_true_eq]
          exact hba
        rw [hab] at this
        exact Bool.noConfusion this
      · intro p hp
        rw [hvlen] at hp
        have hgl : (usedIndices g.faces)[p] ∈ usedIndices g.faces :=
          List.getElem_mem hp
        obtain ⟨f, hf, hcase⟩ := mem_faceVals.mp (mem_usedIndices.mp hgl)
        refine ⟨remapFace (usedIndices g.faces) f,
          by rw [hkf]; exact List.mem_map_of_mem _ hf, ?_⟩
        have hio : idxOf ((usedIndices g.faces)[p]) (usedIndices g.faces) = p :=
          nodup_idxOf_getElem husednodup hp
        rcases hcase with he | he | he
        · refine Or.inl ?_
          show (idxOf f.1 (usedIndices g.faces) : Int) = (p : Int)
          rw [← he, hio]
        · refine Or.inr (Or.inl ?_)
          show (idxOf f.2.1 (usedIndices g.faces) : Int) = (p : Int)
          rw [← he, hio]
        · refine Or.inr (Or.inr ?_)
          show (idxOf f.2.2 (usedIndices g.faces) : Int) = (p : Int)
          rw [← he, hio]
      · rw [hkf, List.length_map]
      · rw [hvlen, show (usedIndices g.faces).length =
          ((usedIndices g.faces).map Int.toNat).length from
            (List.length_map _ _).symm]
        exact nodup_lt_length_le husedNnodup husedNvalid

theorem canonicalMesh_of_eq {g h : Mesh} (hv : h.vertices = g.vertices)
    (hf : h.faces = g.faces) (hc : canonicalMesh g) : canonicalMesh h := by
  intro f hfm
  rw [hf] at hfm
  rw [hv]
  exact hc f hfm

theorem nondegenMesh_of_eq {g h : Mesh} (hv : h.vertices = g.vertices)
    (hf : h.faces = g.faces) (hd : nondegenMesh g) : nondegenMesh h := by
  intro f hfm
  rw [hf] at hfm
  rw [hv]
  exact hd f hfm

theorem allReferenced_of_eq {g h : Mesh} (hv : h.vertices = g.vertices)
    (hf : h.faces = g.faces) (ha : allReferenced g) : allReferenced h := by
  intro p hp
  rw [hv] at hp
  obtain ⟨f, hfm, hcase⟩ := ha p hp
  exact ⟨f, by rw [hf]; exact hfm, hcase⟩

theorem removeInvalidFaces_good {g g' : Mesh} (hc : canonicalMesh g)
    (h : removeInvalidFaces g = some g') :
    g'.vertices = g.vertices ∧ canonicalMesh g' ∧ nondegenMesh g' := by
  simp only [removeInvalidFaces] at h
  cases hrf : resolveFaces g.vertices.length g.faces with
  | none => rw [hrf] at h; simp at h
  | some rf =>
    rw [hrf] at h
    injection h with h
    subst h
    refine ⟨rfl, ?_, ?_⟩
    · intro f hf
      simp only [List.mem_map] at hf
      obtain ⟨⟨f0, t0⟩, hpr, rfl⟩ := hf
      exact hc f0 (List.of_mem_zip (List.mem_filter.mp hpr).1).1
    · intro f hf
      simp only [List.mem_map] at hf
      obtain ⟨⟨f0, t0⟩, hpr, rfl⟩ := hf
      obtain ⟨hz, hpred⟩ := List.mem_filter.mp hpr
      have hmem := (List.of_mem_zip hz).1
      have hrfz := resolveFaces_zip hrf _ hz
      have hcanon := resolveFace_canonical (hc f0 hmem)
      have ht : t0 = toNat3 f0 := Option.some.inj (hrfz.symm.trans hcanon)
      have hdeg : faceDegenerate g.vertices t0 = false := by
        simpa using hpred
      rw [ht] at hdeg
      exact hdeg

/-- A `clean_geometry` run that returns `true` establishes all four
structural invariants on its output. -/
theorem clean_geometry_good {g : Mesh} (h : (clean_geometry g).1 = true) :
    canonicalMesh (clean_geometry g).2 ∧ (clean_geometry g).2.vertices.Nodup ∧
    nondegenMesh (clean_geometry g).2 ∧ rotDistinct (clean_geometry g).2.faces := by
  rcases hm : mergeVertices (removeUnusedVertices g).2 with _ | g2
  · simp only [clean_geometry, hm] at h
    exact Bool.noConfusion h
  · rcases hu : removeUnreferencedVertices g2 with _ | g3
    · simp only [clean_geometry, hm, hu] at h
      exact Bool.noConfusion h
    · rcases hi : removeInvalidFaces g3 with _ | g4
      · simp only [clean_geometry, hm, hu, hi] at h
        exact Bool.noConfusion h
      · have hres : (clean_geometry g).2 = fixNormals (removeDuplicateFaces g4) := by
          simp only [clean_geometry, hm, hu, hi]
        have hcan3 : canonicalMesh g3 := removeUnreferencedVertices_canonical hu
        have hnd3 : g3.vertices.Nodup :=
          removeUnreferencedVertices_nodup hu (mergeVertices_nodup hm)
        obtain ⟨hv4, hcan4, hdeg4⟩ := removeInvalidFaces_good hcan3 hi
        rw [hres]
        refine ⟨?_, ?_, ?_, ?_⟩
        · intro f hf
          have hf4 : f ∈ g4.faces := mem_dedupByRelAux hf
          exact hcan4 f hf4
        · show (removeDuplicateFaces g4).vertices.Nodup
          rw [(removeDuplicateFaces_spec g4).1, hv4]
          exact hnd3
        · intro f hf
          have hf4 : f ∈ g4.faces := mem_dedupByRelAux hf
          exact hdeg4 f hf4
        · exact dedupByRelAux_pairwise.1

/-- C7 counterexample.  On a triangle whose second and third vertices
coincide, the first `clean_geometry` run merges the duplicate pair and then
drops the now-degenerate face, stranding two unreferenced vertices; the
second run removes them, so the vertex count shrinks again (2 → 0) and the
run is not idempotent on mesh size. -/
theorem clean_geometry_not_idempotent :
    (clean_geometry dupVertexMesh).1 = true ∧
    ¬ ((clean_geometry (clean_geometry dupVertexMesh).2).2.vertices.length =
        (clean_geometry dupVertexMesh).2.vertices.length) := by
  decide

/-- C7 (amended): after a successful `clean_geometry` run, a second run
also succeeds, leaves the face count identical, and never increases the
vertex count; the vertex count can strictly decrease when the first run's
face-removal passes left vertices unreferenced. -/
theorem clean_geometry_second_run {g : Mesh} (h : (clean_geometry g).1 = true) :
    (clean_geometry (clean_geometry g).2).1 = true ∧
    (clean_geometry (clean_geometry g).2).2.faces.length =
      (clean_geometry g).2.faces.length ∧
    (clean_geometry (clean_geometry g).2).2.vertices.length ≤
      (clean_geometry g).2.vertices.length := by
  obtain ⟨hc, hn, hd, hr⟩ := clean_geometry_good h
  set g' := (clean_geometry g).2 with hg'
  clear_value g'
  obtain ⟨mc, mn, md, mr, ma, mflen, mvlen⟩ := removeUnusedVertices_good hc hn hd hr
  obtain ⟨m2, hm2, hm2v, hm2f⟩ := mergeVertices_noop mc mn
  have mc2 : canonicalMesh m2 := canonicalMesh_of_eq hm2v hm2f mc
  have ma2 : allReferenced m2 := allReferenced_of_eq hm2v hm2f ma
  obtain ⟨m3, hm3, hm3v, hm3f⟩ := removeUnreferencedVertices_noop mc2 ma2
  have mc3 : canonicalMesh m3 :=
    canonicalMesh_of_eq (hm3v.trans hm2v) (hm3f.trans hm2f) mc
  have md3 : nondegenMesh m3 :=
    nondegenMesh_of_eq (hm3v.trans hm2v) (hm3f.trans hm2f) md
  obtain ⟨m4, hm4, hm4v, hm4f⟩ := removeInvalidFaces_noop mc3 md3
  have hr4 : dedupByRel rotEquiv m4.faces = m4.faces := by
    rw [dedupByRel]
    apply dedupByRelAux_eq_self
    · rw [hm4f, hm3f, hm2f]
      exact mr
    · intro x hx
      exact absurd hx (List.not_mem_nil x)
  have hrun : clean_geometry g' =
      (true, fixNormals (removeDuplicateFaces m4)) := by
    simp only [clean_geometry, hm2, hm3, hm4]
  rw [hrun]
  refine ⟨rfl, ?_, ?_⟩
  · show (removeDuplicateFaces m4).faces.length = g'.faces.length
    show (dedupByRel rotEquiv m4.faces).length = g'.faces.length
    rw [hr4, hm4f, hm3f, hm2f, mflen]
  · show (removeDuplicateFaces m4).vertices.length ≤ g'.vertices.length
    show m4.vertices.length ≤ g'.vertices.length
    rw [hm4v, hm3v, hm2v]
    exact mvlen

/-- C7 witness: the clean triangle passes `clean_geometry`; the second run
keeps its face count and does not increase the vertex count. -/
theorem clean_geometry_second_run_witness :
    (clean_geometry (clean_geometry triangleMesh).2).1 = true ∧
    (clean_geometry (clean_geometry triangleMesh).2).2.faces.length =
      (clean_geometry triangleMesh).2.faces.length ∧
    (clean_geometry (clean_geometry triangleMesh).2).2.vertices.length ≤
      (clean_geometry triangleMesh).2.vertices.length :=
  clean_geometry_second_run (by decide)

/-- C1: after a `clean_geometry` run that returns `true`, every index in the
face buffer is strictly below the vertex-buffer length. -/
theorem clean_geometry_no_dangling_indices (g : Mesh)
    (h : (clean_geometry g).1 = true) :
    ((clean_geometry g).2.faces.all (fun f =>
      f.1 < ((clean_geometry g).2.vertices.length : Int) ∧
      f.2.1 < ((clean_geometry g).2.vertices.length : Int) ∧
      f.2.2 < ((clean_geometry g).2.vertices.length : Int))) = true := by
  rw [List.all_eq_true]
  intro f hf
  simp only [decide_eq_true_eq]
  revert hf
  rcases hm : mergeVertices (removeUnusedVertices g).2 with _ | g2
  · simp only [clean_geometry, hm] at h
    exact Bool.noConfusion h
  · rcases hu : removeUnreferencedVertices g2 with _ | g3
    · simp only [clean_geometry, hm, hu] at h
      exact Bool.noConfusion h
    · rcases hi : removeInvalidFaces g3 with _ | g4
      · simp only [clean_geometry, hm, hu, hi] at h
        exact Bool.noConfusion h
      · simp only [clean_geometry, hm, hu, hi, fixNormals]
        intro hf
        have h4 := removeInvalidFaces_spec hi
        have hmem4 : f ∈ g4.faces := (removeDuplicateFaces_spec g4).2 f hf
        have hmem3 : f ∈ g3.faces := h4.2 f hmem4
        have hcan := removeUnreferencedVertices_canonical hu f hmem3
        have hv : (removeDuplicateFaces g4).vertices = g3.vertices := by
          rw [(removeDuplicateFaces_spec g4).1, h4.1]
        rw [hv]
        exact ⟨hcan.2.1, hcan.2.2.2.1, hcan.2.2.2.2.2⟩

/-- C1 witness: the clean triangle passes `clean_geometry` and its face
indices stay in range. -/
theorem clean_geometry_no_dangling_indices_witness :
    ((clean_geometry triangleMesh).2.faces.all (fun f =>
      f.1 < ((clean_geometry triangleMesh).2.vertices.length : Int) ∧
      f.2.1 < ((clean_geometry triangleMesh).2.vertices.length : Int) ∧
      f.2.2 < ((clean_geometry triangleMesh).2.vertices.length : Int))) = true :=
  clean_geometry_no_dangling_indices triangleMesh (by decide)

/-- C9 witness: a 1024×1024 texture at resize factor 0.75 under the default
configuration comes out at 768×768 (the minimum of 64 does not bind). -/
theorem webp_resize_dims_witness :
    webpNewSize defaultConfig 1024 1024 (3 / 4) = (768, 768) ∧
    defaultConfig.min_texture_size ≤ (webpNewSize defaultConfig 1024 1024 (3 / 4)).1 := by
  have h := webp_resize_dims defaultConfig 1024 1024 (3 / 4) (by norm_num) (by decide)
  refine ⟨?_, h.2.1⟩
  rw [h.1]
  have e1 : ((1024 : Int) : ℚ) * (3 / 4) = ((768 : Int) : ℚ) := by norm_num
  rw [e1, Int.floor_intCast]
  decide

end GLBTool
